import Mathlib

set_option autoImplicit false

/-
Shallow embedding of `src/extensions/git/src/decorationProvider.ts`.

The file has three classes:
- `GitIgnoreDecorationProvider`: a coalescing query queue over
  `checkIgnoreQueue : Map<string, {resolve, reject}>`, dispatched by
  `checkIgnoreSoon` (debounced 500ms) via `repository.checkIgnore`.
- `GitDecorationProvider`: a decoration aggregator over
  `decorations : Map<string, DecorationData>`, recomputed by
  `onDidRunOperation` from the index and working-tree resource groups,
  emitting the diff of the two key sets.
- `GitDecorations`: the provider registry mapping each repository to a
  disposable pair of the two providers above.

JavaScript `Map` objects are embedded as association lists in insertion
order: `set` replaces the value in place when the key is present and
appends otherwise, `delete` removes the entry, iteration follows the
list order, all exactly as a JS `Map` behaves.
-/

namespace VSGit

/-- JS `Map.get`: value of the first (only) entry with the given key. -/
def mget {κ α : Type} [DecidableEq κ] : List (κ × α) → κ → Option α
  | [], _ => none
  | (k, v) :: rest, q => if k = q then some v else mget rest q

/-- JS `Map.has`. -/
def mhas {κ α : Type} [DecidableEq κ] (m : List (κ × α)) (q : κ) : Bool :=
  (mget m q).isSome

/-- JS `Map.set`: replace in place when present, append otherwise. -/
def mset {κ α : Type} [DecidableEq κ] : List (κ × α) → κ → α → List (κ × α)
  | [], k, v => [(k, v)]
  | (k0, v0) :: rest, k, v =>
    if k0 = k then (k0, v) :: rest else (k0, v0) :: mset rest k v

/-- JS `Map.delete`: drop the entry with the given key. -/
def mdelete {κ α : Type} [DecidableEq κ] : List (κ × α) → κ → List (κ × α)
  | [], _ => []
  | (k0, v0) :: rest, k =>
    if k0 = k then mdelete rest k else (k0, v0) :: mdelete rest k

/-- JS `[...map.keys()]`: the keys in insertion order. -/
def keysOf {κ α : Type} (m : List (κ × α)) : List κ :=
  m.map Prod.fst

theorem keysOf_cons {κ α : Type} (k : κ) (v : α) (tl : List (κ × α)) :
    keysOf ((k, v) :: tl) = k :: keysOf tl := rfl

theorem mget_mset {κ α : Type} [DecidableEq κ] (m : List (κ × α)) (k : κ) (v : α) (q : κ) :
    mget (mset m k v) q = if k = q then some v else mget m q := by
  induction m with
  | nil => simp [mset, mget]
  | cons hd tl ih =>
    obtain ⟨k0, v0⟩ := hd
    by_cases h0 : k0 = k
    · subst h0
      by_cases hq : k0 = q <;> simp [mset, mget, hq]
    · by_cases hq : k0 = q
      · subst hq
        have : ¬ k = k0 := fun h => h0 h.symm
        simp [mset, mget, h0, this]
      · simp [mset, mget, h0, hq, ih]

theorem mhas_iff_mem_keysOf {κ α : Type} [DecidableEq κ] (m : List (κ × α)) (q : κ) :
    mhas m q = true ↔ q ∈ keysOf m := by
  induction m with
  | nil => simp [mhas, mget, keysOf]
  | cons hd tl ih =>
    obtain ⟨k0, v0⟩ := hd
    by_cases h0 : k0 = q
    · simp [mhas, mget, keysOf, h0]
    · have h0q : ¬ q = k0 := fun h => h0 h.symm
      simpa [mhas, mget, keysOf, h0, h0q] using ih

theorem mget_mdelete {κ α : Type} [DecidableEq κ] (m : List (κ × α)) (k : κ) (q : κ) :
    mget (mdelete m k) q = if q = k then none else mget m q := by
  induction m with
  | nil => simp [mdelete, mget]
  | cons hd tl ih =>
    obtain ⟨k0, v0⟩ := hd
    by_cases h0 : k0 = k
    · subst h0
      by_cases hq : q = k0
      · subst hq
        simpa [mdelete, mget] using ih
      · have h0q : ¬ k0 = q := fun h => hq h.symm
        simp [mdelete, mget, h0q, hq, ih]
    · by_cases hq : k0 = q
      · subst hq
        simp [mdelete, mget, h0]
      · simp [mdelete, mget, h0, hq, ih]

theorem mhas_mdelete {κ α : Type} [DecidableEq κ] (m : List (κ × α)) (k : κ) (q : κ) :
    mhas (mdelete m k) q = true ↔ (mhas m q = true ∧ q ≠ k) := by
  by_cases hq : q = k <;> simp [mhas, mget_mdelete, hq]

theorem keysOf_mset_of_mhas {κ α : Type} [DecidableEq κ] (m : List (κ × α)) (k : κ) (v : α)
    (h : mhas m k = true) : keysOf (mset m k v) = keysOf m := by
  induction m with
  | nil => simp [mhas, mget] at h
  | cons hd tl ih =>
    obtain ⟨k0, v0⟩ := hd
    by_cases h0 : k0 = k
    · simp [mset, keysOf, h0]
    · have htl : mhas tl k = true := by
        simpa [mhas, mget, h0] using h
      simp [mset, keysOf, h0]
      simpa [keysOf] using ih htl

theorem keysOf_mset_of_not_mhas {κ α : Type} [DecidableEq κ] (m : List (κ × α)) (k : κ) (v : α)
    (h : mhas m k = false) : keysOf (mset m k v) = keysOf m ++ [k] := by
  induction m with
  | nil => simp [mset, keysOf]
  | cons hd tl ih =>
    obtain ⟨k0, v0⟩ := hd
    by_cases h0 : k0 = k
    · simp [mhas, mget, h0] at h
    · have htl : mhas tl k = false := by
        simpa [mhas, mget, h0] using h
      simp [mset, keysOf, h0]
      simpa [keysOf] using ih htl

theorem nodup_keysOf_mset {κ α : Type} [DecidableEq κ] (m : List (κ × α)) (k : κ) (v : α)
    (h : (keysOf m).Nodup) : (keysOf (mset m k v)).Nodup := by
  by_cases hk : mhas m k = true
  · rw [keysOf_mset_of_mhas m k v hk]
    exact h
  · rw [keysOf_mset_of_not_mhas m k v (by simpa using hk)]
    have hnm : k ∉ keysOf m := fun hmem =>
      hk ((mhas_iff_mem_keysOf m k).mpr hmem)
    simpa [List.nodup_append] using ⟨h, hnm⟩

/-
`GitDecorationProvider` (the decoration aggregator).

TypeScript state: `private decorations = new Map<string, DecorationData>()`.
`vscode.DecorationData` is used with the two fields the source writes,
`priority` and `opacity`; `Uri` values are embedded as their canonical
string (`uri.toString()` / `Uri.parse` are inverse renamings and carry no
logic in this file).
-/

/-- The `DecorationData` fields this source constructs and compares. -/
structure DecorationData where
  priority : Nat
  opacity : Rat
deriving DecidableEq, Repr

/-- One entry of `GitResourceGroup.resourceStates`: an `original` resource
identity and an optional precomputed `resourceDecoration`. -/
structure ResourceState where
  original : String
  resourceDecoration : Option DecorationData
deriving DecidableEq, Repr

/-- `GitDecorationProvider.collectDecorationData`: for each resource state
of the group, when `r.resourceDecoration` is present do
`bucket.set(r.original.toString(), r.resourceDecoration)`. -/
def collectDecorationData (group : List ResourceState)
    (bucket : List (String × DecorationData)) : List (String × DecorationData) :=
  group.foldl
    (fun b r =>
      match r.resourceDecoration with
      | some d => mset b r.original d
      | none => b)
    bucket

/-- First loop of `GitDecorationProvider.onDidRunOperation`:
`newDecorations.forEach((value, uriString) => { if (this.decorations.has(uriString))
{ this.decorations.delete(uriString); } else { uris.push(Uri.parse(uriString)); } })`.
Arguments: remaining entries of the new map, the (mutated) old map, the
`uris` accumulator. Returns the mutated old map and the accumulator. -/
def diffNewLoop :
    List (String × DecorationData) → List (String × DecorationData) → List String →
    List (String × DecorationData) × List String
  | [], old, uris => (old, uris)
  | (k, _) :: rest, old, uris =>
    if mhas old k then diffNewLoop rest (mdelete old k) uris
    else diffNewLoop rest old (uris ++ [k])

/-- `GitDecorationProvider.onDidRunOperation`: rebuild the decoration map
from the index group then the working-tree group, diff its key set against
the old map, replace `this.decorations` and fire the changed uris.
Returns (new `decorations` state, uris passed to `_onDidChangeDecorations.fire`). -/
def onDidRunOperation (decorations : List (String × DecorationData))
    (indexGroup workingTreeGroup : List ResourceState) :
    List (String × DecorationData) × List String :=
  let newDecorations := collectDecorationData workingTreeGroup
    (collectDecorationData indexGroup [])
  let afterNewLoop := diffNewLoop newDecorations decorations []
  (newDecorations, afterNewLoop.2 ++ keysOf afterNewLoop.1)

/-- `GitDecorationProvider.provideDecoration`:
`return this.decorations.get(uri.toString())`. The returned pair makes the
absence of state mutation explicit: its second component is the
`decorations` map the method leaves behind. -/
def provideDecoration (decorations : List (String × DecorationData)) (uri : String) :
    Option DecorationData × List (String × DecorationData) :=
  (mget decorations uri, decorations)

/-- Specification helper: the decoration of the last resource state of the
group whose `original` is the given path and which carries a decoration
(`none` when no such state exists). -/
def lastDeco : List ResourceState → String → Option DecorationData
  | [], _ => none
  | r :: rest, p =>
    match lastDeco rest p with
    | some d => some d
    | none => if r.original = p then r.resourceDecoration else none

theorem mget_collectDecorationData (group : List ResourceState) :
    ∀ (bucket : List (String × DecorationData)) (p : String),
      mget (collectDecorationData group bucket) p =
        match lastDeco group p with
        | some d => some d
        | none => mget bucket p := by
  induction group with
  | nil => intro bucket p; simp [collectDecorationData, lastDeco]
  | cons r rest ih =>
    intro bucket p
    cases hr : r.resourceDecoration with
    | none =>
      simp only [collectDecorationData, List.foldl_cons, hr]
      rw [show (List.foldl _ bucket rest = collectDecorationData rest bucket) from rfl, ih]
      cases hld : lastDeco rest p <;> simp [lastDeco, hld, hr]
    | some d =>
      by_cases hp : r.original = p
      · simp only [collectDecorationData, List.foldl_cons, hr]
        rw [show (List.foldl _ (mset bucket r.original d) rest =
            collectDecorationData rest (mset bucket r.original d)) from rfl, ih]
        cases hld : lastDeco rest p <;>
          simp [lastDeco, hld, hr, hp, mget_mset]
      · simp only [collectDecorationData, List.foldl_cons, hr]
        rw [show (List.foldl _ (mset bucket r.original d) rest =
            collectDecorationData rest (mset bucket r.original d)) from rfl, ih]
        cases hld : lastDeco rest p <;>
          simp [lastDeco, hld, hr, hp, mget_mset]

theorem nodup_keysOf_collectDecorationData (group : List ResourceState) :
    ∀ bucket : List (String × DecorationData),
      (keysOf bucket).Nodup → (keysOf (collectDecorationData group bucket)).Nodup := by
  induction group with
  | nil => intro bucket h; simpa [collectDecorationData] using h
  | cons r rest ih =>
    intro bucket h
    cases hr : r.resourceDecoration with
    | none => simpa [collectDecorationData, hr] using ih bucket h
    | some d =>
      simp only [collectDecorationData, List.foldl_cons, hr]
      exact ih (mset bucket r.original d) (nodup_keysOf_mset bucket r.original d h)

theorem mget_mem {κ α : Type} [DecidableEq κ] (m : List (κ × α)) (q : κ) (v : α)
    (h : mget m q = some v) : (q, v) ∈ m := by
  induction m with
  | nil => simp [mget] at h
  | cons hd tl ih =>
    obtain ⟨k0, v0⟩ := hd
    by_cases h0 : k0 = q
    · subst h0
      simp [mget] at h
      simp [h]
    · simp [mget, h0] at h
      simp [ih h]

theorem mhas_diffNewLoop_fst (newl : List (String × DecorationData)) :
    ∀ (old : List (String × DecorationData)) (uris : List String) (u : String),
      (mhas (diffNewLoop newl old uris).1 u = true ↔
        (mhas old u = true ∧ u ∉ keysOf newl)) := by
  induction newl with
  | nil => intro old uris u; simp [diffNewLoop, keysOf]
  | cons hd tl ih =>
    intro old uris u
    obtain ⟨k, d⟩ := hd
    rw [keysOf_cons]
    by_cases hk : mhas old k = true
    · rw [show (diffNewLoop ((k, d) :: tl) old uris =
          diffNewLoop tl (mdelete old k) uris) from by simp [diffNewLoop, hk]]
      rw [ih, mhas_mdelete]
      simp only [List.mem_cons, not_or]
      constructor
      · rintro ⟨⟨h1, h2⟩, h3⟩
        exact ⟨h1, h2, h3⟩
      · rintro ⟨h1, h2, h3⟩
        exact ⟨⟨h1, h2⟩, h3⟩
    · rw [show (diffNewLoop ((k, d) :: tl) old uris =
          diffNewLoop tl old (uris ++ [k])) from by simp [diffNewLoop, hk]]
      rw [ih]
      simp only [List.mem_cons, not_or]
      constructor
      · rintro ⟨h1, h2⟩
        refine ⟨h1, ?_, h2⟩
        rintro rfl
        exact hk h1
      · rintro ⟨h1, _, h2⟩
        exact ⟨h1, h2⟩

theorem mem_diffNewLoop_snd (newl : List (String × DecorationData)) :
    ∀ (old : List (String × DecorationData)) (uris : List String) (u : String),
      (keysOf newl).Nodup →
      (u ∈ (diffNewLoop newl old uris).2 ↔
        u ∈ uris ∨ (u ∈ keysOf newl ∧ mhas old u = false)) := by
  induction newl with
  | nil => intro old uris u _; simp [diffNewLoop, keysOf]
  | cons hd tl ih =>
    intro old uris u hnd
    obtain ⟨k, d⟩ := hd
    rw [keysOf_cons] at hnd ⊢
    rw [List.nodup_cons] at hnd
    obtain ⟨hk_tl, hnd_tl⟩ := hnd
    by_cases hk : mhas old k = true
    · rw [show (diffNewLoop ((k, d) :: tl) old uris =
          diffNewLoop tl (mdelete old k) uris) from by simp [diffNewLoop, hk]]
      rw [ih (mdelete old k) uris u hnd_tl]
      constructor
      · rintro (h1 | ⟨h1, h2⟩)
        · exact Or.inl h1
        · refine Or.inr ⟨List.mem_cons_of_mem _ h1, ?_⟩
          have hne : u ≠ k := by
            rintro rfl
            exact hk_tl h1
          cases hmo : mhas old u with
          | false => rfl
          | true =>
            have : mhas (mdelete old k) u = true :=
              (mhas_mdelete old k u).mpr ⟨hmo, hne⟩
            rw [this] at h2
            exact Bool.noConfusion h2
      · rintro (h1 | ⟨h1, h2⟩)
        · exact Or.inl h1
        · rcases List.mem_cons.mp h1 with rfl | h1
          · rw [hk] at h2
            exact Bool.noConfusion h2
          · refine Or.inr ⟨h1, ?_⟩
            cases hmd : mhas (mdelete old k) u with
            | false => rfl
            | true =>
              have := (mhas_mdelete old k u).mp hmd
              rw [this.1] at h2
              exact Bool.noConfusion h2
    · rw [show (diffNewLoop ((k, d) :: tl) old uris =
          diffNewLoop tl old (uris ++ [k])) from by simp [diffNewLoop, hk]]
      rw [ih old (uris ++ [k]) u hnd_tl]
      have hkf : mhas old k = false := by
        cases hmo : mhas old k with
        | false => rfl
        | true => exact absurd hmo hk
      rw [List.mem_append, List.mem_singleton]
      constructor
      · rintro ((h1 | rfl) | ⟨h1, h2⟩)
        · exact Or.inl h1
        · exact Or.inr ⟨List.mem_cons_self _ _, hkf⟩
        · exact Or.inr ⟨List.mem_cons_of_mem _ h1, h2⟩
      · rintro (h1 | ⟨h1, h2⟩)
        · exact Or.inl (Or.inl h1)
        · rcases List.mem_cons.mp h1 with rfl | h1
          · exact Or.inl (Or.inr rfl)
          · exact Or.inr ⟨h1, h2⟩

/-- C1: the change set emitted by `GitDecorationProvider.onDidRunOperation` is
exactly the symmetric difference of the old and new decoration maps' key sets
(value changes at a key present in both maps are not reported), and in
particular for old map `x ↦ D1, y ↦ D2` and recomputed new map
`y ↦ D2, z ↦ D3` the emitted uris are exactly `z` and `x`. -/
theorem onDidRunOperation_symmDiff :
    (∀ (old : List (String × DecorationData)) (indexGroup workingTreeGroup : List ResourceState)
       (u : String),
      u ∈ (onDidRunOperation old indexGroup workingTreeGroup).2 ↔
        ((u ∈ keysOf (onDidRunOperation old indexGroup workingTreeGroup).1 ∧ u ∉ keysOf old) ∨
          (u ∈ keysOf old ∧ u ∉ keysOf (onDidRunOperation old indexGroup workingTreeGroup).1))) ∧
    (onDidRunOperation
        [("x", ⟨1, 1/2⟩), ("y", ⟨2, 3/4⟩)] []
        [⟨"y", some ⟨2, 3/4⟩⟩, ⟨"z", some ⟨3, 1/4⟩⟩]).2 = ["z", "x"] := by
  constructor
  · intro old indexGroup workingTreeGroup u
    set newMap := collectDecorationData workingTreeGroup (collectDecorationData indexGroup [])
      with hnew
    have hndnew : (keysOf newMap).Nodup := by
      refine nodup_keysOf_collectDecorationData workingTreeGroup _ ?_
      exact nodup_keysOf_collectDecorationData indexGroup [] (by simp [keysOf])
    have hfst : (onDidRunOperation old indexGroup workingTreeGroup).1 = newMap := rfl
    have hsnd : (onDidRunOperation old indexGroup workingTreeGroup).2 =
        (diffNewLoop newMap old []).2 ++ keysOf (diffNewLoop newMap old []).1 := rfl
    rw [hfst, hsnd]
    rw [List.mem_append]
    rw [mem_diffNewLoop_snd newMap old [] u hndnew]
    have hrem : u ∈ keysOf (diffNewLoop newMap old []).1 ↔
        (mhas old u = true ∧ u ∉ keysOf newMap) := by
      rw [← mhas_iff_mem_keysOf]
      exact mhas_diffNewLoop_fst newMap old [] u
    rw [hrem]
    have hmem := mhas_iff_mem_keysOf old u
    constructor
    · rintro ((h | ⟨h1, h2⟩) | ⟨h1, h2⟩)
      · exact absurd h (List.not_mem_nil u)
      · refine Or.inl ⟨h1, fun hmemold => ?_⟩
        rw [hmem.mpr hmemold] at h2
        exact Bool.noConfusion h2
      · exact Or.inr ⟨hmem.mp h1, h2⟩
    · rintro (⟨h1, h2⟩ | ⟨h1, h2⟩)
      · refine Or.inl (Or.inr ⟨h1, ?_⟩)
        cases hmo : mhas old u with
        | false => rfl
        | true => exact absurd (hmem.mp hmo) h2
      · exact Or.inr ⟨hmem.mpr h1, h2⟩
  · decide

/-- C9: `GitDecorationProvider.provideDecoration` is a pure lookup: it returns
exactly the decoration stored in the current map under the uri's key (absent
when none), and leaves the decoration map unchanged. -/
theorem provideDecoration_pure_lookup
    (decorations : List (String × DecorationData)) (uri : String) :
    (provideDecoration decorations uri).1 = mget decorations uri ∧
    (provideDecoration decorations uri).2 = decorations ∧
    ((provideDecoration decorations uri).1.isSome = true ↔ uri ∈ keysOf decorations) ∧
    (∀ d : DecorationData,
      (provideDecoration decorations uri).1 = some d → (uri, d) ∈ decorations) := by
  refine ⟨rfl, rfl, ?_, ?_⟩
  · exact mhas_iff_mem_keysOf decorations uri
  · intro d h
    exact mget_mem decorations uri d h

theorem provideDecoration_pure_lookup_witness :
    ("a", (⟨3, 3/4⟩ : DecorationData)) ∈ [("a", (⟨3, 3/4⟩ : DecorationData))] :=
  (provideDecoration_pure_lookup [("a", ⟨3, 3/4⟩)] "a").2.2.2 ⟨3, 3/4⟩ rfl

/-- C10: during recomputation the index group is collected first and the
working-tree group second into the same map, so the rebuilt map stores, at
each path, the working-tree group's (last) decoration when one exists, the
index group's (last) decoration otherwise, and no entry at all when no
resource state for the path carries a decoration. -/
theorem onDidRunOperation_workingTree_wins
    (old : List (String × DecorationData))
    (indexGroup workingTreeGroup : List ResourceState) (p : String) :
    mget (onDidRunOperation old indexGroup workingTreeGroup).1 p =
      match lastDeco workingTreeGroup p with
      | some d => some d
      | none => lastDeco indexGroup p := by
  have h1 : (onDidRunOperation old indexGroup workingTreeGroup).1 =
      collectDecorationData workingTreeGroup (collectDecorationData indexGroup []) := rfl
  rw [h1, mget_collectDecorationData]
  cases lastDeco workingTreeGroup p with
  | some d => rfl
  | none =>
    rw [mget_collectDecorationData]
    cases lastDeco indexGroup p with
    | some d => rfl
    | none => rfl

/-
`GitIgnoreDecorationProvider` (the coalescing query queue).

TypeScript state: `checkIgnoreQueue = new Map<string, {resolve, reject}>()`.
The callback pair stored under a path key is identified by a numeric query
id (each `provideDecoration` call constructs one fresh promise, hence one
fresh pair); an invocation of a callback is observed as a `QEvent`.
`repository.checkIgnore` is the external collaborator: a dispatch is
parametrized by the settled outcome of that promise — `Except.ok` the
returned ignored-set, `Except.error` the error value.
-/

/-- State of a `GitIgnoreDecorationProvider`: its `checkIgnoreQueue` map
from path key (`uri.fsPath`) to the pending promise's callback pair. -/
structure IgnoreQueueState where
  checkIgnoreQueue : List (String × Nat)
deriving DecidableEq, Repr

/-- A callback invocation on a pending query's promise: `value.resolve(b)`
or `value.reject(err)` (errors embedded as numeric codes). -/
inductive QEvent where
  | resolve (qid : Nat) (ignored : Bool)
  | reject (qid : Nat) (err : Nat)
deriving DecidableEq, Repr

/-- The query id a callback invocation belongs to. -/
def qidOf : QEvent → Nat
  | QEvent.resolve qid _ => qid
  | QEvent.reject qid _ => qid

/-- `GitIgnoreDecorationProvider.provideDecoration`, queueing part (the body
of the promise executor): `this.checkIgnoreQueue.set(uri.fsPath, { resolve, reject })`. -/
def queueQuery (st : IgnoreQueueState) (path : String) (qid : Nat) : IgnoreQueueState :=
  ⟨mset st.checkIgnoreQueue path qid⟩

/-- `GitIgnoreDecorationProvider.checkIgnoreSoon`: copy the queue
(`new Map(this.checkIgnoreQueue.entries())`), clear the live queue, call
`this.repository.checkIgnore([...queue.keys()])`, and on settlement resolve
every copied entry with membership in the returned set, or reject every
copied entry with the error. Returns the state after the swap, the argument
passed to `checkIgnore`, and the callback invocations in queue order. -/
def checkIgnoreSoon (st : IgnoreQueueState) (response : Except Nat (List String)) :
    IgnoreQueueState × List String × List QEvent :=
  let queue := st.checkIgnoreQueue
  let cleared : IgnoreQueueState := ⟨[]⟩
  let arg := keysOf queue
  match response with
  | Except.ok ignoreSet =>
    (cleared, arg,
      queue.foldl (fun evs e => evs ++ [QEvent.resolve e.2 (ignoreSet.contains e.1)]) [])
  | Except.error err =>
    (cleared, arg,
      queue.foldl (fun evs e => evs ++ [QEvent.reject e.2 err]) [])

/-- `GitIgnoreDecorationProvider.dispose`: dispose the registrations and
`this.checkIgnoreQueue.clear()` — pending entries are dropped with no
callback invocation. -/
def disposeIgnoreQueue (_st : IgnoreQueueState) : IgnoreQueueState :=
  ⟨[]⟩

/-- `provideDecoration`'s `.then` continuation (the only consumer of a
query's resolved boolean): `if (ignored) return { priority: 3, opacity: 0.75 }`,
implicitly `undefined` otherwise. -/
def ignoredToDecoration (ignored : Bool) : Option DecorationData :=
  if ignored then some ⟨3, 0.75⟩ else none

theorem foldl_push_eq_map {β γ : Type} (f : β → γ) (l : List β) :
    ∀ acc : List γ, l.foldl (fun evs e => evs ++ [f e]) acc = acc ++ l.map f := by
  induction l with
  | nil => intro acc; simp
  | cons e tl ih =>
    intro acc
    simp only [List.foldl_cons, List.map_cons]
    rw [ih]
    simp

theorem checkIgnoreSoon_ok_events (st : IgnoreQueueState) (igset : List String) :
    (checkIgnoreSoon st (Except.ok igset)).2.2 =
      st.checkIgnoreQueue.map (fun e => QEvent.resolve e.2 (igset.contains e.1)) := by
  simp [checkIgnoreSoon, foldl_push_eq_map]

theorem checkIgnoreSoon_error_events (st : IgnoreQueueState) (err : Nat) :
    (checkIgnoreSoon st (Except.error err)).2.2 =
      st.checkIgnoreQueue.map (fun e => QEvent.reject e.2 err) := by
  simp [checkIgnoreSoon, foldl_push_eq_map]

/-- C2: on a successful batch lookup, every pending query of the dispatched
batch is resolved with `true` exactly when its path key is in the returned
ignored-set and with `false` otherwise — the callback invocations are, in
queue order, `resolve` of each entry's id with that membership boolean; in
particular for queued paths `a, b, c` and ignored-set `a, c`, the queries
for `a` and `c` resolve `true` and the query for `b` resolves `false`. -/
theorem checkIgnoreSoon_success_resolution :
    (∀ (st : IgnoreQueueState) (igset : List String),
      (checkIgnoreSoon st (Except.ok igset)).2.2 =
        st.checkIgnoreQueue.map (fun e => QEvent.resolve e.2 (igset.contains e.1))) ∧
    (∀ (st : IgnoreQueueState) (igset : List String) (k : String) (qid : Nat),
      (k, qid) ∈ st.checkIgnoreQueue →
      QEvent.resolve qid (igset.contains k) ∈ (checkIgnoreSoon st (Except.ok igset)).2.2) ∧
    ((checkIgnoreSoon ⟨[("a", 1), ("b", 2), ("c", 3)]⟩ (Except.ok ["a", "c"])).2.2 =
      [QEvent.resolve 1 true, QEvent.resolve 2 false, QEvent.resolve 3 true]) := by
  refine ⟨checkIgnoreSoon_ok_events, ?_, by decide⟩
  intro st igset k qid hmem
  rw [checkIgnoreSoon_ok_events]
  exact List.mem_map.mpr ⟨(k, qid), hmem, rfl⟩

theorem checkIgnoreSoon_success_resolution_witness :
    QEvent.resolve 2 (["a", "c"].contains "b") ∈
      (checkIgnoreSoon ⟨[("a", 1), ("b", 2), ("c", 3)]⟩ (Except.ok ["a", "c"])).2.2 :=
  checkIgnoreSoon_success_resolution.2.1 ⟨[("a", 1), ("b", 2), ("c", 3)]⟩ ["a", "c"] "b" 2
    (by decide)

/-- C3: on a failed batch lookup, every pending query of the dispatched
batch is rejected with the same error — the callback invocations are
exactly one `reject` with the original error per queued entry, and none of
them is a `resolve` (no partial success). -/
theorem checkIgnoreSoon_failure_rejects_all (st : IgnoreQueueState) (err : Nat) :
    ((checkIgnoreSoon st (Except.error err)).2.2 =
      st.checkIgnoreQueue.map (fun e => QEvent.reject e.2 err)) ∧
    (∀ (k : String) (qid : Nat), (k, qid) ∈ st.checkIgnoreQueue →
      QEvent.reject qid err ∈ (checkIgnoreSoon st (Except.error err)).2.2) ∧
    (∀ ev ∈ (checkIgnoreSoon st (Except.error err)).2.2,
      ∀ (qid : Nat) (ignored : Bool), ev ≠ QEvent.resolve qid ignored) := by
  refine ⟨checkIgnoreSoon_error_events st err, ?_, ?_⟩
  · intro k qid hmem
    rw [checkIgnoreSoon_error_events]
    exact List.mem_map.mpr ⟨(k, qid), hmem, rfl⟩
  · intro ev hev qid ignored
    rw [checkIgnoreSoon_error_events] at hev
    obtain ⟨e, _, rfl⟩ := List.mem_map.mp hev
    intro hcon
    exact QEvent.noConfusion hcon

theorem checkIgnoreSoon_failure_rejects_all_witness :
    QEvent.reject 1 7 ∈ (checkIgnoreSoon ⟨[("a", 1)]⟩ (Except.error 7)).2.2 :=
  (checkIgnoreSoon_failure_rejects_all ⟨[("a", 1)]⟩ 7).2.1 "a" 1 (by decide)

theorem mset_append_of_not_mhas {κ α : Type} [DecidableEq κ] (m : List (κ × α)) (k : κ) (v : α)
    (h : mhas m k = false) : mset m k v = m ++ [(k, v)] := by
  induction m with
  | nil => simp [mset]
  | cons hd tl ih =>
    obtain ⟨k0, v0⟩ := hd
    by_cases h0 : k0 = k
    · simp [mhas, mget, h0] at h
    · have htl : mhas tl k = false := by
        simpa [mhas, mget, h0] using h
      simp [mset, h0, ih htl]

theorem mhas_append {κ α : Type} [DecidableEq κ] (a b : List (κ × α)) (k : κ) :
    mhas (a ++ b) k = (mhas a k || mhas b k) := by
  induction a with
  | nil => simp [mhas, mget]
  | cons hd tl ih =>
    obtain ⟨k0, v0⟩ := hd
    by_cases h0 : k0 = k
    · simp [mhas, mget, h0]
    · simp only [List.cons_append]
      simpa [mhas, mget, h0] using ih

/-- Issuing a run of queries whose paths are fresh and mutually distinct
appends one entry per query to the live queue. -/
theorem foldl_queueQuery_append (queries : List (String × Nat)) :
    ∀ st : IgnoreQueueState, (keysOf queries).Nodup →
      (∀ k ∈ keysOf queries, mhas st.checkIgnoreQueue k = false) →
      (queries.foldl (fun s e => queueQuery s e.1 e.2) st).checkIgnoreQueue =
        st.checkIgnoreQueue ++ queries := by
  induction queries with
  | nil => intro st _ _; simp
  | cons e rest ih =>
    intro st hnd hfresh
    obtain ⟨p, q⟩ := e
    rw [keysOf_cons] at hnd hfresh
    rw [List.nodup_cons] at hnd
    obtain ⟨hp_rest, hnd_rest⟩ := hnd
    have hp_fresh : mhas st.checkIgnoreQueue p = false := hfresh p (List.mem_cons_self _ _)
    have hstep : (queueQuery st p q).checkIgnoreQueue = st.checkIgnoreQueue ++ [(p, q)] := by
      simp [queueQuery, mset_append_of_not_mhas _ _ _ hp_fresh]
    simp only [List.foldl_cons]
    rw [ih (queueQuery st p q) hnd_rest ?_]
    · rw [hstep, List.append_assoc]
      rfl
    · intro k hk
      rw [hstep, mhas_append]
      have h1 : mhas st.checkIgnoreQueue k = false := hfresh k (List.mem_cons_of_mem _ hk)
      have h2 : mhas [(p, q)] k = false := by
        have : ¬ p = k := by
          rintro rfl
          exact hp_rest hk
        simp [mhas, mget, this]
      rw [h1, h2]
      rfl

/-- C4: each dispatch of `checkIgnoreSoon` swaps out the entire pending set
atomically — the batched lookup is issued with exactly the path keys pending
at the swap and the live queue is left empty, so a query arriving after the
swap starts a fresh batch — and coalescing any run of queries for distinct
fresh paths yields a single batched lookup carrying the union of their keys. -/
theorem checkIgnoreSoon_swap_and_batch :
    (∀ (st : IgnoreQueueState) (r : Except Nat (List String)),
      (checkIgnoreSoon st r).2.1 = keysOf st.checkIgnoreQueue ∧
      (checkIgnoreSoon st r).1.checkIgnoreQueue = []) ∧
    (∀ (st : IgnoreQueueState) (r : Except Nat (List String)) (p : String) (qid : Nat),
      (queueQuery (checkIgnoreSoon st r).1 p qid).checkIgnoreQueue = [(p, qid)]) ∧
    (∀ (queries : List (String × Nat)) (r : Except Nat (List String)),
      (keysOf queries).Nodup →
      (checkIgnoreSoon (queries.foldl (fun s e => queueQuery s e.1 e.2) ⟨[]⟩) r).2.1 =
        keysOf queries) := by
  refine ⟨?_, ?_, ?_⟩
  · intro st r
    cases r <;> exact ⟨rfl, rfl⟩
  · intro st r p qid
    cases r <;> rfl
  · intro queries r hnd
    have hbase : (queries.foldl (fun s e => queueQuery s e.1 e.2)
        (⟨[]⟩ : IgnoreQueueState)).checkIgnoreQueue = queries := by
      have := foldl_queueQuery_append queries ⟨[]⟩ hnd
        (fun k _ => by simp [mhas, mget])
      simpa using this
    cases r <;> simp [checkIgnoreSoon, hbase]

theorem checkIgnoreSoon_swap_and_batch_witness :
    (keysOf [("a", 1), ("b", 2)]).Nodup ∧
    (checkIgnoreSoon ([("a", 1), ("b", 2)].foldl (fun s e => queueQuery s e.1 e.2) ⟨[]⟩)
      (Except.ok ["a"])).2.1 = keysOf [("a", 1), ("b", 2)] :=
  ⟨by decide,
    checkIgnoreSoon_swap_and_batch.2.2 [("a", 1), ("b", 2)] (Except.ok ["a"]) (by decide)⟩

/-- C5: the mapping from a query's resolved ignored boolean to its delivered
decoration is the fixed pure function `true ↦ priority 3, opacity 0.75`,
`false ↦ absent`; end to end, a queued path in the returned ignored-set is
resolved `true` and hence decorated with priority 3 and opacity 0.75, and a
queued path absent from the returned set is resolved `false` and yields no
decoration. -/
theorem ignoredToDecoration_fixed_mapping (st : IgnoreQueueState) (igset : List String)
    (k : String) (qid : Nat) (hmem : (k, qid) ∈ st.checkIgnoreQueue) :
    (igset.contains k = true →
      QEvent.resolve qid true ∈ (checkIgnoreSoon st (Except.ok igset)).2.2 ∧
      ignoredToDecoration true = some ⟨3, 0.75⟩) ∧
    (igset.contains k = false →
      QEvent.resolve qid false ∈ (checkIgnoreSoon st (Except.ok igset)).2.2 ∧
      ignoredToDecoration false = none) := by
  constructor
  · intro htrue
    refine ⟨?_, rfl⟩
    rw [checkIgnoreSoon_ok_events]
    refine List.mem_map.mpr ⟨(k, qid), hmem, ?_⟩
    rw [htrue]
  · intro hfalse
    refine ⟨?_, rfl⟩
    rw [checkIgnoreSoon_ok_events]
    refine List.mem_map.mpr ⟨(k, qid), hmem, ?_⟩
    rw [hfalse]

theorem ignoredToDecoration_fixed_mapping_witness :
    QEvent.resolve 1 true ∈
      (checkIgnoreSoon ⟨[("/repo/a.txt", 1)]⟩ (Except.ok ["/repo/a.txt"])).2.2 ∧
    ignoredToDecoration true = some ⟨3, 0.75⟩ :=
  (ignoredToDecoration_fixed_mapping ⟨[("/repo/a.txt", 1)]⟩ ["/repo/a.txt"]
    "/repo/a.txt" 1 (by decide)).1 (by decide)

/-
Operation traces over one `GitIgnoreDecorationProvider`, for lifecycle
properties of pending queries: any interleaving of `provideDecoration`
queueing steps, debounced `checkIgnoreSoon` dispatches (each parametrized
by the settled `repository.checkIgnore` outcome), and `dispose`.
-/

/-- One externally triggered step on a `GitIgnoreDecorationProvider`. -/
inductive QOp where
  | query (path : String) (qid : Nat)
  | dispatch (response : Except Nat (List String))
  | dispose
deriving Repr

/-- Effect of one step: the successor state and the callback invocations it
performs. -/
def stepQ (st : IgnoreQueueState) : QOp → IgnoreQueueState × List QEvent
  | QOp.query p qid => (queueQuery st p qid, [])
  | QOp.dispatch r => ((checkIgnoreSoon st r).1, (checkIgnoreSoon st r).2.2)
  | QOp.dispose => (disposeIgnoreQueue st, [])

/-- Run a trace of steps, collecting all callback invocations in order. -/
def runQ (st : IgnoreQueueState) : List QOp → IgnoreQueueState × List QEvent
  | [] => (st, [])
  | op :: rest =>
    let s1 := stepQ st op
    let s2 := runQ s1.1 rest
    (s2.1, s1.2 ++ s2.2)

/-- How many callback invocations of the trace belong to the given query. -/
def countCompletions (evs : List QEvent) (qid : Nat) : Nat :=
  (evs.filter (fun ev => qidOf ev = qid)).length

/-- How many live queue entries hold the given query's callbacks. -/
def countQueued (st : IgnoreQueueState) (qid : Nat) : Nat :=
  (st.checkIgnoreQueue.filter (fun e => e.2 = qid)).length

/-- How many `query` steps of the trace register the given query. -/
def countQueryOps (ops : List QOp) (qid : Nat) : Nat :=
  (ops.filter (fun op =>
    match op with
    | QOp.query _ q => q = qid
    | _ => false)).length

theorem countCompletions_append (a b : List QEvent) (qid : Nat) :
    countCompletions (a ++ b) qid = countCompletions a qid + countCompletions b qid := by
  simp [countCompletions, List.filter_append]

theorem countCompletions_map_entry (f : String × Nat → QEvent)
    (hf : ∀ e, qidOf (f e) = e.2) (qid : Nat) :
    ∀ l : List (String × Nat),
      countCompletions (l.map f) qid = (l.filter (fun e => e.2 = qid)).length := by
  intro l
  induction l with
  | nil => rfl
  | cons e tl ih =>
    simp only [List.map_cons, countCompletions, List.filter_cons] at ih ⊢
    rw [hf e]
    by_cases he : e.2 = qid <;> simp [he, ih]

theorem countCompletions_dispatch (st : IgnoreQueueState) (r : Except Nat (List String))
    (qid : Nat) :
    countCompletions (checkIgnoreSoon st r).2.2 qid = countQueued st qid := by
  cases r with
  | ok igset =>
    rw [checkIgnoreSoon_ok_events]
    exact countCompletions_map_entry
      (fun e => QEvent.resolve e.2 (igset.contains e.1)) (fun e => rfl) qid
      st.checkIgnoreQueue
  | error err =>
    rw [checkIgnoreSoon_error_events]
    exact countCompletions_map_entry
      (fun e => QEvent.reject e.2 err) (fun e => rfl) qid st.checkIgnoreQueue

theorem length_filter_mset_le {κ : Type} [DecidableEq κ] (m : List (κ × Nat)) (k : κ) (v : Nat)
    (p : Nat → Bool) :
    ((mset m k v).filter (fun e => p e.2)).length ≤
      (m.filter (fun e => p e.2)).length + (if p v then 1 else 0) := by
  induction m with
  | nil =>
    cases hp : p v <;> simp [mset, List.filter, hp]
  | cons hd tl ih =>
    obtain ⟨k0, v0⟩ := hd
    by_cases h0 : k0 = k
    · cases hp : p v <;> cases hp0 : p v0 <;>
        simp [mset, h0, List.filter_cons, hp, hp0]
    · have hms : mset ((k0, v0) :: tl) k v = (k0, v0) :: mset tl k v := by
        simp [mset, h0]
      rw [hms, List.filter_cons, List.filter_cons]
      cases hp0 : p v0
      · simpa using ih
      · simp only [if_true, List.length_cons]
        cases hp : p v <;> simp only [hp] at ih ⊢ <;> simp at ih ⊢ <;> omega

theorem countQueued_queueQuery_le (st : IgnoreQueueState) (path : String) (q0 qid : Nat) :
    countQueued (queueQuery st path q0) qid ≤
      countQueued st qid + (if q0 = qid then 1 else 0) := by
  have := length_filter_mset_le st.checkIgnoreQueue path q0 (fun v => decide (v = qid))
  simpa [countQueued, queueQuery] using this

/-- Invariant behind C7: along any trace, the completions delivered to a
query plus its live queue entries never exceed its initial queue entries
plus its `query` registrations. -/
theorem countCompletions_runQ_le (ops : List QOp) :
    ∀ (st : IgnoreQueueState) (qid : Nat),
      countCompletions (runQ st ops).2 qid + countQueued (runQ st ops).1 qid ≤
        countQueued st qid + countQueryOps ops qid := by
  induction ops with
  | nil =>
    intro st qid
    simp [runQ, countQueryOps, countCompletions]
  | cons op rest ih =>
    intro st qid
    have hrun : runQ st (op :: rest) =
        ((runQ (stepQ st op).1 rest).1, (stepQ st op).2 ++ (runQ (stepQ st op).1 rest).2) := rfl
    rw [hrun]
    simp only [countCompletions_append]
    cases op with
    | query p q0 =>
      have h1 := ih (queueQuery st p q0) qid
      have h2 := countQueued_queueQuery_le st p q0 qid
      have hops : countQueryOps (QOp.query p q0 :: rest) qid =
          countQueryOps rest qid + (if q0 = qid then 1 else 0) := by
        by_cases hq : q0 = qid <;> simp [countQueryOps, List.filter_cons, hq]
      rw [hops]
      have hev : countCompletions (stepQ st (QOp.query p q0)).2 qid = 0 := rfl
      rw [hev]
      simp only [stepQ] at h1 ⊢
      omega
    | dispatch r =>
      have h1 := ih (checkIgnoreSoon st r).1 qid
      have h2 : countCompletions (stepQ st (QOp.dispatch r)).2 qid = countQueued st qid :=
        countCompletions_dispatch st r qid
      have h3 : countQueued (checkIgnoreSoon st r).1 qid = 0 := by
        cases r <;> rfl
      have hops : countQueryOps (QOp.dispatch r :: rest) qid = countQueryOps rest qid := by
        simp [countQueryOps, List.filter_cons]
      rw [hops, h2]
      simp only [stepQ] at h1 ⊢
      omega
    | dispose =>
      have h1 := ih (disposeIgnoreQueue st) qid
      have h3 : countQueued (disposeIgnoreQueue st) qid = 0 := rfl
      have hops : countQueryOps (QOp.dispose :: rest) qid = countQueryOps rest qid := by
        simp [countQueryOps, List.filter_cons]
      rw [hops]
      have hev : countCompletions (stepQ st QOp.dispose).2 qid = 0 := rfl
      rw [hev]
      simp only [stepQ] at h1 ⊢
      omega

/-- C7 counterexample: the claim "every accepted query's callbacks are
invoked exactly once over every subsequent sequence of operations" fails —
for the concrete trace that queues a query for path `a` and then disposes
the provider, the query's callbacks are invoked zero times, not once
(`dispose` clears `checkIgnoreQueue` without resolving or rejecting). -/
theorem query_completion_lost_on_dispose :
    countCompletions (runQ ⟨[]⟩ [QOp.query "a" 0, QOp.dispose]).2 0 = 0 ∧
    ¬ countCompletions (runQ ⟨[]⟩ [QOp.query "a" 0, QOp.dispose]).2 0 = 1 := by
  constructor
  · rfl
  · intro h
    exact Nat.noConfusion (h.symm.trans rfl)

/-- C7 (amended): every pending query is resolved or rejected at most once —
for any trace of query, dispatch and dispose steps from a fresh provider in
which the query's callback pair is registered by at most one `query` step,
its callbacks are invoked at most once in total; zero invocations occur when
the entry is dropped by `dispose` or overwritten by a later query for the
same path key before its batch is dispatched. -/
theorem query_completed_at_most_once (ops : List QOp) (qid : Nat)
    (h : countQueryOps ops qid ≤ 1) :
    countCompletions (runQ ⟨[]⟩ ops).2 qid ≤ 1 := by
  have hinv := countCompletions_runQ_le ops ⟨[]⟩ qid
  have hempty : countQueued ⟨[]⟩ qid = 0 := rfl
  rw [hempty] at hinv
  omega

theorem query_completed_at_most_once_witness :
    countQueryOps [QOp.query "a" 0, QOp.dispatch (Except.ok ["a"])] 0 ≤ 1 ∧
    countCompletions (runQ ⟨[]⟩ [QOp.query "a" 0, QOp.dispatch (Except.ok ["a"])]).2 0 ≤ 1 :=
  ⟨by decide, query_completed_at_most_once [QOp.query "a" 0, QOp.dispatch (Except.ok ["a"])] 0
    (by decide)⟩

/-
`GitDecorations` (the provider registry).

Repositories and disposable handles are identified by numeric tokens.
`onDidOpenRepository` constructs one `GitDecorationProvider` and one
`GitIgnoreDecorationProvider` for the repository and stores
`Disposable.from(provider, ignoreProvider)` in `this.providers`, keyed by
the repository; construction is deterministic, so each component is
identified by its repository token.
-/

/-- The pair stored per repository by `GitDecorations.onDidOpenRepository`:
the `GitDecorationProvider` (decoration aggregator) and the
`GitIgnoreDecorationProvider` (coalescing query queue) built for it. -/
structure ProviderPair where
  provider : Nat
  ignoreProvider : Nat
deriving DecidableEq, Repr

/-- State of `GitDecorations`: its own event subscriptions
(`this.disposables`) and the per-repository provider map (`this.providers`). -/
structure RegistryState where
  disposables : List Nat
  providers : List (Nat × ProviderPair)
deriving DecidableEq, Repr

/-- `GitDecorations.onDidOpenRepository`: construct both providers for the
repository and `this.providers.set(repository, Disposable.from(provider, ignoreProvider))`. -/
def onDidOpenRepository (st : RegistryState) (repository : Nat) : RegistryState :=
  { st with providers := mset st.providers repository ⟨repository, repository⟩ }

/-- `GitDecorations` constructor: push the two model event subscriptions
(handles 0 and 1) onto `this.disposables`, then
`model.repositories.forEach(this.onDidOpenRepository, this)` — bind to
every repository already open at construction. -/
def gitDecorationsInit (repositories : List Nat) : RegistryState :=
  repositories.foldl onDidOpenRepository { disposables := [0, 1], providers := [] }

/-- `GitDecorations.dispose`, line for line:
`this.disposables.forEach(d => d.dispose());` invokes `dispose()` on each
subscription; `this.providers.forEach(value => value.dispose);` has as its
callback body the bare property access `value.dispose` — no call — so each
iteration evaluates the function reference, `forEach` discards it, and no
pair disposal is invoked; `this.providers.clear();` empties the map (the
`disposables` array itself is not cleared). Returns the resulting state,
the subscription handles on which `dispose()` was invoked, and the provider
pairs on which `dispose()` was invoked. -/
def gitDecorationsDispose (st : RegistryState) :
    RegistryState × List Nat × List ProviderPair :=
  let disposedSubscriptions := st.disposables.foldl (fun acc d => acc ++ [d]) []
  let disposedPairs := st.providers.foldl
    (fun acc (_ : Nat × ProviderPair) => acc) ([] : List ProviderPair)
  ({ disposables := st.disposables, providers := [] },
    disposedSubscriptions, disposedPairs)

theorem foldl_const {α β : Type} (l : List α) :
    ∀ init : List β, l.foldl (fun acc _ => acc) init = init := by
  induction l with
  | nil => intro init; rfl
  | cons a rest ih => intro init; exact ih init

/-- C6: the claim that `GitDecorations.dispose` invokes the dispose of every
still-tracked provider pair fails on the code: the loop body
`value => value.dispose` only evaluates the `dispose` property and never
invokes it, so for every registry state no pair disposal occurs, even
though the registry's own subscriptions are disposed and the tracking map
is cleared — exhibited on a registry tracking one pair. -/
theorem gitDecorationsDispose_never_disposes_pairs :
    (∀ st : RegistryState, (gitDecorationsDispose st).2.2 = []) ∧
    ((gitDecorationsDispose ⟨[0, 1], [(1, ⟨1, 1⟩)]⟩).2.2 = [] ∧
      (gitDecorationsDispose ⟨[0, 1], [(1, ⟨1, 1⟩)]⟩).2.1 = [0, 1] ∧
      (gitDecorationsDispose ⟨[0, 1], [(1, ⟨1, 1⟩)]⟩).1.providers = []) := by
  refine ⟨?_, rfl, rfl, rfl⟩
  intro st
  exact foldl_const st.providers []

theorem foldl_openRepo_append (repositories : List Nat) :
    ∀ m : List (Nat × ProviderPair), repositories.Nodup →
      (∀ k ∈ repositories, mhas m k = false) →
      repositories.foldl (fun acc r => mset acc r ⟨r, r⟩) m =
        m ++ repositories.map (fun r => (r, ⟨r, r⟩)) := by
  induction repositories with
  | nil => intro m _ _; simp
  | cons r rest ih =>
    intro m hnd hfresh
    rw [List.nodup_cons] at hnd
    obtain ⟨hr, hnd_rest⟩ := hnd
    have hfr : mhas m r = false := hfresh r (List.mem_cons_self _ _)
    simp only [List.foldl_cons, List.map_cons]
    rw [mset_append_of_not_mhas m r ⟨r, r⟩ hfr]
    have hfresh2 : ∀ k ∈ rest, mhas (m ++ [(r, (⟨r, r⟩ : ProviderPair))]) k = false := by
      intro k hk
      rw [mhas_append]
      have h1 := hfresh k (List.mem_cons_of_mem _ hk)
      have h2 : mhas [(r, (⟨r, r⟩ : ProviderPair))] k = false := by
        have hne : ¬ r = k := by
          rintro rfl
          exact hr hk
        simp [mhas, mget, hne]
      rw [h1, h2]
      rfl
    rw [ih (m ++ [(r, (⟨r, r⟩ : ProviderPair))]) hnd_rest hfresh2]
    rw [List.append_assoc]
    rfl

theorem gitDecorationsInit_providers_foldl (repositories : List Nat) :
    ∀ st : RegistryState,
      (repositories.foldl onDidOpenRepository st).providers =
        repositories.foldl (fun acc r => mset acc r ⟨r, r⟩) st.providers := by
  induction repositories with
  | nil => intro st; rfl
  | cons r rest ih =>
    intro st
    simp only [List.foldl_cons]
    rw [ih (onDidOpenRepository st r)]
    rfl

theorem mget_map_pair (repos : List Nat) (r : Nat) (hr : r ∈ repos) :
    mget (repos.map (fun x => (x, (⟨x, x⟩ : ProviderPair)))) r = some ⟨r, r⟩ := by
  induction repos with
  | nil => cases hr
  | cons a rest ih =>
    by_cases ha : a = r
    · simp [mget, ha]
    · rcases List.mem_cons.mp hr with rfl | hr2
      · exact absurd rfl ha
      · simp [mget, ha, ih hr2]

/-- C8: at construction the registry binds to every repository session
already open: constructing it over N distinct open repositories yields N
tracked provider pairs without any subsequent open event, and the pair
tracked for each repository is exactly the decoration provider and ignore
provider constructed for it. -/
theorem gitDecorationsInit_binds_existing (repositories : List Nat)
    (hnd : repositories.Nodup) :
    (gitDecorationsInit repositories).providers.length = repositories.length ∧
    ∀ r ∈ repositories,
      mget (gitDecorationsInit repositories).providers r = some ⟨r, r⟩ := by
  have hprov : (gitDecorationsInit repositories).providers =
      repositories.map (fun r => (r, ⟨r, r⟩)) := by
    rw [show gitDecorationsInit repositories =
        repositories.foldl onDidOpenRepository ⟨[0, 1], []⟩ from rfl]
    rw [gitDecorationsInit_providers_foldl]
    rw [show ((⟨[0, 1], []⟩ : RegistryState)).providers = ([] : List (Nat × ProviderPair))
      from rfl]
    rw [foldl_openRepo_append repositories [] hnd (fun k _ => rfl)]
    rfl
  constructor
  · rw [hprov]
    exact List.length_map _ _
  · intro r hr
    rw [hprov]
    exact mget_map_pair repositories r hr

theorem gitDecorationsInit_binds_existing_witness :
    [1, 2].Nodup ∧ (gitDecorationsInit [1, 2]).providers.length = 2 :=
  ⟨by decide, (gitDecorationsInit_binds_existing [1, 2] (by decide)).1⟩

end VSGit
